import Mathlib

/-!
# Verification of the lxmlbind binding library

Shallow embedding of `lxmlbind/base.py` (and, where that module is absent
from the sources, of the behavior the specification records for
`lxmlbind/property.py` and the fixture types) together with proofs of the
frozen claims about it.
-/

set_option maxHeartbeats 1000000

/-- An `lxml.etree` element: a tag, an ordered attribute map, optional text
(before the first child), optional tail (after the element), and an ordered
list of children.  Modelled from the spec: the tree type itself belongs to
the third-party `lxml` library (spec section 3 "Tree node"). -/
inductive Elem : Type where
  | mk (tag : String) (attrib : List (String × String)) (text : Option String)
       (tail : Option String) (children : List Elem) : Elem

def Elem.tag : Elem → String
  | .mk t _ _ _ _ => t

def Elem.attrib : Elem → List (String × String)
  | .mk _ a _ _ _ => a

def Elem.text : Elem → Option String
  | .mk _ _ x _ _ => x

def Elem.tail : Elem → Option String
  | .mk _ _ _ l _ => l

def Elem.children : Elem → List Elem
  | .mk _ _ _ _ c => c

theorem Elem.eta (e : Elem) :
    Elem.mk e.tag e.attrib e.text e.tail e.children = e := by
  cases e
  rfl

/-- Python `str.strip()`: drop leading and trailing whitespace. -/
def strip (s : String) : String :=
  ⟨((s.data.dropWhile Char.isWhitespace).reverse.dropWhile Char.isWhitespace).reverse⟩

/-- Python `value.strip() or None` applied to an optional string: `None`
stays `None`, otherwise trim whitespace and turn an empty result into
`None`.  Embeds `_strip` inside `eq_xml` (base.py lines 256-259). -/
def pyStrip : Option String → Option String
  | none => none
  | some s => if strip s = "" then none else some (strip s)

/-- Python dictionary equality on association lists: the two lists denote
the same key-to-value map (insertion order irrelevant; an `lxml` attribute
dict never holds a duplicate key, so lookup-first semantics is exact).
Embeds the `==` on the two attribute dicts in `eq_xml` (base.py line 249). -/
def dictEq (a b : List (String × String)) : Bool :=
  (a.map Prod.fst ++ b.map Prod.fst).all (fun k => a.lookup k == b.lookup k)

theorem dictEq_iff (a b : List (String × String)) :
    dictEq a b = true ↔ ∀ k, a.lookup k = b.lookup k := by
  constructor
  · intro h k
    by_cases hka : k ∈ a.map Prod.fst
    · have := List.all_eq_true.mp h k (List.mem_append.mpr (Or.inl hka))
      exact beq_iff_eq.mp this
    · by_cases hkb : k ∈ b.map Prod.fst
      · have := List.all_eq_true.mp h k (List.mem_append.mpr (Or.inr hkb))
        exact beq_iff_eq.mp this
      · rw [List.lookup_eq_none_iff.mpr ?_, List.lookup_eq_none_iff.mpr ?_]
        · intro x hx
          refine bne_iff_ne.mpr (fun hk => hkb ?_)
          exact List.mem_map.mpr ⟨x, hx, hk.symm⟩
        · intro x hx
          refine bne_iff_ne.mpr (fun hk => hka ?_)
          exact List.mem_map.mpr ⟨x, hx, hk.symm⟩
  · intro h
    exact List.all_eq_true.mpr (fun k _ => beq_iff_eq.mpr (h k))

theorem dictEq_refl (a : List (String × String)) : dictEq a a = true :=
  (dictEq_iff a a).mpr (fun _ => rfl)

/-- `{key: value for key, value in attributes.iteritems() if key not in ignore_attributes}`
(base.py lines 244-245). -/
def filterAttrs (ignore_attributes : List String) (a : List (String × String)) :
    List (String × String) :=
  a.filter (fun p => ¬ p.1 ∈ ignore_attributes)

/-- The key order used by `sorted(..., key=lambda element: element.tag)`
(base.py lines 280-281). -/
def tagLe (a b : Elem) : Prop := a.tag ≤ b.tag

instance : DecidableRel tagLe := fun a b => inferInstanceAs (Decidable (a.tag ≤ b.tag))

instance : IsTotal Elem tagLe := ⟨fun a b => le_total a.tag b.tag⟩

instance : IsTrans Elem tagLe := ⟨fun _ _ _ h h' => le_trans h h'⟩

/-- Python's `sorted(elements, key=lambda element: element.tag)` is a stable
sort by tag; `List.insertionSort tagLe` is extensionally the same stable
sort. -/
def sortByTag (l : List Elem) : List Elem := l.insertionSort tagLe

theorem sortByTag_perm (l : List Elem) : List.Perm (sortByTag l) l :=
  l.perm_insertionSort tagLe

theorem sizeOf_lt_of_mem_sortByTag {x : Elem} {l : List Elem}
    (h : x ∈ sortByTag l) : sizeOf x < 1 + sizeOf l := by
  have hm : x ∈ l := (sortByTag_perm l).mem_iff.mp h
  have := List.sizeOf_lt_of_mem hm
  omega

/-- `eq_xml` (base.py lines 222-293): deep structural comparison of two
elements, with an optional list of attribute names to ignore and a
whitespace-insensitivity flag.  Tags must match exactly; attribute dicts
(after dropping ignored keys) must be equal; text and tail are compared
after `_strip` normalization when whitespace-insensitive; children are
counted, independently sorted by tag, and compared pairwise. -/
def eq_xml (this that : Elem) (ignore_attributes : List String := [])
    (ignore_whitespace : Bool := true) : Bool :=
  if this.tag ≠ that.tag then false
  else if ¬ dictEq (filterAttrs ignore_attributes this.attrib)
                   (filterAttrs ignore_attributes that.attrib) then false
  else if (if ignore_whitespace then pyStrip this.text else this.text) ≠
          (if ignore_whitespace then pyStrip that.text else that.text) then false
  else if (if ignore_whitespace then pyStrip this.tail else this.tail) ≠
          (if ignore_whitespace then pyStrip that.tail else that.tail) then false
  else
    let these_children := sortByTag this.children
    let those_children := sortByTag that.children
    if these_children.length ≠ those_children.length then false
    else (these_children.zip those_children).attach.all
      (fun p => eq_xml p.1.1 p.1.2 ignore_attributes ignore_whitespace)
termination_by sizeOf this
decreasing_by
  rename_i hp
  have h1 : p.1.1 ∈ sortByTag this.children := (List.of_mem_zip p.2).1
  have h2 := sizeOf_lt_of_mem_sortByTag h1
  cases this
  simp only [Elem.children] at h2
  simp only [Elem.mk.sizeOf_spec]
  omega

/-- Membership in `zip l l` pairs an element with itself. -/
theorem zip_self_mem {α : Type} : ∀ {l : List α} {p : α × α}, p ∈ l.zip l → p.1 = p.2 := by
  intro l
  induction l with
  | nil => intro p hp; cases hp
  | cons x xs ih =>
    intro p hp
    rw [List.zip_cons_cons, List.mem_cons] at hp
    rcases hp with h | h
    · rw [h]
    · exact ih h

/-- `eq_xml` is reflexive (helper shared by several claims). -/
theorem eq_xml_refl (t : Elem) (ia : List String) (iw : Bool) :
    eq_xml t t ia iw = true := by
  rw [eq_xml]
  rw [if_neg (by simp)]
  rw [if_neg (not_not_intro (dictEq_refl _))]
  rw [if_neg (by simp)]
  rw [if_neg (by simp)]
  rw [if_neg (by simp)]
  refine List.all_eq_true.mpr ?_
  rintro ⟨p, hp⟩ _
  have hp1 : p.1 = p.2 := zip_self_mem hp
  show eq_xml p.1 p.2 ia iw = true
  rw [← hp1]
  exact eq_xml_refl p.1 ia iw
termination_by sizeOf t
decreasing_by
  have h1 : p.1 ∈ sortByTag t.children := (List.of_mem_zip hp).1
  have h2 := sizeOf_lt_of_mem_sortByTag h1
  cases t
  simp only [Elem.children] at h2
  simp only [Elem.mk.sizeOf_spec]
  omega

mutual
/-- Two trees "differ only in insignificant whitespace": equal tags,
attribute maps, `_strip`-normalized text and tail, and pointwise
whitespace-equivalent children in the same order.  This is the spec-side
reading of "two trees differing only in insignificant whitespace". -/
def wsEquiv : Elem → Elem → Bool
  | .mk t1 a1 x1 l1 c1, .mk t2 a2 x2 l2 c2 =>
    t1 == t2 && dictEq a1 a2 && (pyStrip x1 == pyStrip x2) && (pyStrip l1 == pyStrip l2)
      && wsEquivL c1 c2
termination_by structural e => e

def wsEquivL : List Elem → List Elem → Bool
  | [], [] => true
  | e :: es, f :: fs => wsEquiv e f && wsEquivL es fs
  | _, _ => false
termination_by structural l => l
end

theorem wsEquiv_parts {a b : Elem} (h : wsEquiv a b = true) :
    a.tag = b.tag ∧ dictEq a.attrib b.attrib = true ∧ pyStrip a.text = pyStrip b.text ∧
      pyStrip a.tail = pyStrip b.tail ∧ wsEquivL a.children b.children = true := by
  cases a
  cases b
  rw [wsEquiv] at h
  simp only [Bool.and_eq_true, beq_iff_eq] at h
  exact ⟨h.1.1.1.1, h.1.1.1.2, h.1.1.2, h.1.2, h.2⟩

theorem wsEquivL_forall2 : ∀ {l1 l2 : List Elem}, wsEquivL l1 l2 = true →
    List.Forall₂ (fun x y => wsEquiv x y = true) l1 l2 := by
  intro l1
  induction l1 with
  | nil =>
    intro l2 h
    cases l2 with
    | nil => exact List.Forall₂.nil
    | cons f fs => exact Bool.noConfusion h
  | cons e es ih =>
    intro l2 h
    cases l2 with
    | nil => exact Bool.noConfusion h
    | cons f fs =>
      rw [wsEquivL] at h
      simp only [Bool.and_eq_true] at h
      exact List.Forall₂.cons h.1 (ih h.2)

/-- Looking a key up in the filtered attribute list. -/
theorem lookup_filterAttrs (ia : List String) (l : List (String × String)) (k : String) :
    (filterAttrs ia l).lookup k = if k ∈ ia then none else l.lookup k := by
  induction l with
  | nil => simp [filterAttrs]
  | cons p l ih =>
    obtain ⟨pk, pv⟩ := p
    by_cases hp : pk ∈ ia
    · have hfilter : filterAttrs ia ((pk, pv) :: l) = filterAttrs ia l := by
        simp [filterAttrs, List.filter_cons, hp]
      rw [hfilter, ih]
      by_cases hk : k ∈ ia
      · simp [hk]
      · have hne : (k == pk) = false := by
          refine beq_eq_false_iff_ne.mpr (fun h => hk ?_)
          rw [h]; exact hp
        simp only [hk, if_false, List.lookup, hne]
    · have hfilter : filterAttrs ia ((pk, pv) :: l) = (pk, pv) :: filterAttrs ia l := by
        simp [filterAttrs, List.filter_cons, hp]
      rw [hfilter]
      by_cases hk : k = pk
      · subst hk
        have hkia : ¬ k ∈ ia := hp
        simp [List.lookup, hkia]
      · have hne : (k == pk) = false := beq_eq_false_iff_ne.mpr hk
        simp only [List.lookup, hne, ih]

/-- A relation that determines the sort key is preserved by `orderedInsert`:
inserting related elements into pointwise-related lists gives
pointwise-related lists (both sides take identical branching decisions,
because the tags agree). -/
theorem forall2_orderedInsert {R : Elem → Elem → Prop}
    (hR : ∀ x y, R x y → x.tag = y.tag) {a b : Elem} (hab : R a b) :
    ∀ {l1 l2 : List Elem}, List.Forall₂ R l1 l2 →
      List.Forall₂ R (l1.orderedInsert tagLe a) (l2.orderedInsert tagLe b) := by
  intro l1 l2 h
  induction h with
  | nil => exact List.Forall₂.cons hab List.Forall₂.nil
  | cons hxy hl ih =>
    rename_i x y l1' l2'
    rw [List.orderedInsert, List.orderedInsert]
    by_cases hle : tagLe a x
    · rw [if_pos hle, if_pos (by unfold tagLe at *; rw [← hR a b hab, ← hR x y hxy]; exact hle)]
      exact List.Forall₂.cons hab (List.Forall₂.cons hxy hl)
    · rw [if_neg hle, if_neg (by unfold tagLe at *; rw [← hR a b hab, ← hR x y hxy]; exact hle)]
      exact List.Forall₂.cons hxy ih

/-- Sorting by tag preserves a tag-determining pointwise relation. -/
theorem forall2_sortByTag {R : Elem → Elem → Prop}
    (hR : ∀ x y, R x y → x.tag = y.tag) :
    ∀ {l1 l2 : List Elem}, List.Forall₂ R l1 l2 →
      List.Forall₂ R (sortByTag l1) (sortByTag l2) := by
  intro l1 l2 h
  induction h with
  | nil => exact List.Forall₂.nil
  | cons hxy hl ih => exact forall2_orderedInsert hR hxy ih

/-- Every pair drawn from the zip of two pointwise-related lists is related. -/
theorem forall2_zip {R : Elem → Elem → Prop} :
    ∀ {l1 l2 : List Elem}, List.Forall₂ R l1 l2 → ∀ p ∈ l1.zip l2, R p.1 p.2 := by
  intro l1 l2 h
  induction h with
  | nil => intro p hp; cases hp
  | cons hxy hl ih =>
    intro p hp
    rw [List.zip_cons_cons, List.mem_cons] at hp
    rcases hp with h | h
    · rw [h]; exact hxy
    · exact ih p h

theorem wsEquiv_tag {x y : Elem} (h : wsEquiv x y = true) : x.tag = y.tag :=
  (wsEquiv_parts h).1

/-- Whitespace-equivalent trees are `eq_xml`-equal in whitespace-insensitive
mode, for any ignored-attribute list (helper shared by several claims). -/
theorem wsEquiv_eq_xml (a b : Elem) (ia : List String) (h : wsEquiv a b = true) :
    eq_xml a b ia true = true := by
  obtain ⟨htag, hattr, htext, htail, hch⟩ := wsEquiv_parts h
  rw [eq_xml]
  rw [if_neg (not_not_intro htag)]
  rw [if_neg (not_not_intro ?attrs)]
  case attrs =>
    refine (dictEq_iff _ _).mpr (fun k => ?_)
    rw [lookup_filterAttrs, lookup_filterAttrs]
    by_cases hk : k ∈ ia
    · simp [hk]
    · simp only [hk, if_false]
      exact (dictEq_iff _ _).mp hattr k
  rw [if_neg (not_not_intro (by simpa using htext))]
  rw [if_neg (not_not_intro (by simpa using htail))]
  have hforall : List.Forall₂ (fun x y => wsEquiv x y = true)
      (sortByTag a.children) (sortByTag b.children) :=
    forall2_sortByTag (fun x y hxy => wsEquiv_tag hxy) (wsEquivL_forall2 hch)
  rw [if_neg (not_not_intro hforall.length_eq)]
  refine List.all_eq_true.mpr ?_
  rintro ⟨p, hp⟩ _
  show eq_xml p.1 p.2 ia true = true
  exact wsEquiv_eq_xml p.1 p.2 ia (forall2_zip hforall p hp)
termination_by sizeOf a
decreasing_by
  have h1 : p.1 ∈ sortByTag a.children := (List.of_mem_zip hp).1
  have h2 := sizeOf_lt_of_mem_sortByTag h1
  cases a
  simp only [Elem.children] at h2
  simp only [Elem.mk.sizeOf_spec]
  omega

/-- The strict version of the tag order. -/
def tagLt (a b : Elem) : Prop := a.tag < b.tag

instance : IsAntisymm Elem tagLt :=
  ⟨fun _ _ h h' => absurd h' (not_lt_of_lt h)⟩

/-- Two permutations of the same children, with pairwise distinct tags, sort
to the same list. -/
theorem sortByTag_eq_of_perm {l1 l2 : List Elem} (hperm : List.Perm l1 l2)
    (hdist : l1.Pairwise (fun a b => a.tag ≠ b.tag)) :
    sortByTag l1 = sortByTag l2 := by
  have hp : List.Perm (sortByTag l1) (sortByTag l2) :=
    ((sortByTag_perm l1).trans hperm).trans (sortByTag_perm l2).symm
  have hs1 : List.Sorted tagLe (sortByTag l1) := List.sorted_insertionSort tagLe l1
  have hs2 : List.Sorted tagLe (sortByTag l2) := List.sorted_insertionSort tagLe l2
  have hsym : Symmetric (fun a b : Elem => a.tag ≠ b.tag) := fun _ _ h => h.symm
  have hd1 : (sortByTag l1).Pairwise (fun a b => a.tag ≠ b.tag) :=
    hdist.perm (sortByTag_perm l1).symm (fun h => hsym h)
  have hd2 : (sortByTag l2).Pairwise (fun a b => a.tag ≠ b.tag) :=
    (hdist.perm hperm (fun h => hsym h)).perm (sortByTag_perm l2).symm (fun h => hsym h)
  have hstrict1 : List.Sorted tagLt (sortByTag l1) :=
    (List.Pairwise.and hs1 hd1).imp (fun h => lt_of_le_of_ne h.1 h.2)
  have hstrict2 : List.Sorted tagLt (sortByTag l2) :=
    (List.Pairwise.and hs2 hd2).imp (fun h => lt_of_le_of_ne h.1 h.2)
  exact List.eq_of_perm_of_sorted hp hstrict1 hstrict2

/-- C10: Structural equality is reflexive: for every tree node `t`,
comparing `t` with itself (with any ignored-attribute list and either
whitespace-sensitivity setting) returns equal. -/
theorem claim_C10_eq_xml_reflexive (t : Elem) (ignore_attributes : List String)
    (ignore_whitespace : Bool) : eq_xml t t ignore_attributes ignore_whitespace = true :=
  eq_xml_refl t ignore_attributes ignore_whitespace

/-- C6: permuting the children of a node so that no two children share a
tag yields a tree that `eq_xml` considers equal to the original, because
both sides' children are independently sorted by tag name and compared
pairwise by position. -/
theorem claim_C6_eq_xml_perm_distinct_tags (e : Elem) (c2 : List Elem)
    (ia : List String) (iw : Bool)
    (hperm : List.Perm e.children c2)
    (hdist : e.children.Pairwise (fun a b => a.tag ≠ b.tag)) :
    eq_xml e (Elem.mk e.tag e.attrib e.text e.tail c2) ia iw = true := by
  obtain ⟨t, a, x, l, c1⟩ := e
  simp only [Elem.children] at hperm hdist
  have hsort : sortByTag c1 = sortByTag c2 := sortByTag_eq_of_perm hperm hdist
  rw [eq_xml]
  simp only [Elem.tag, Elem.attrib, Elem.text, Elem.tail, Elem.children]
  rw [if_neg (not_not_intro rfl)]
  rw [if_neg (not_not_intro (dictEq_refl _))]
  rw [if_neg (not_not_intro rfl)]
  rw [if_neg (not_not_intro rfl)]
  rw [← hsort]
  rw [if_neg (not_not_intro rfl)]
  refine List.all_eq_true.mpr ?_
  rintro ⟨p, hp⟩ _
  have hp1 := zip_self_mem hp
  show eq_xml p.1 p.2 ia iw = true
  rw [← hp1]
  exact eq_xml_refl p.1 ia iw

/-- Witness for C6 at a concrete input: a two-child node with distinct
tags, children swapped. -/
theorem claim_C6_witness :
    eq_xml (Elem.mk "r" [] none none [Elem.mk "a" [] none none [], Elem.mk "b" [] none none []])
      (Elem.mk "r" [] none none [Elem.mk "b" [] none none [], Elem.mk "a" [] none none []])
      [] true = true :=
  claim_C6_eq_xml_perm_distinct_tags
    (Elem.mk "r" [] none none [Elem.mk "a" [] none none [], Elem.mk "b" [] none none []])
    [Elem.mk "b" [] none none [], Elem.mk "a" [] none none []] [] true
    (List.Perm.swap (Elem.mk "b" [] none none []) (Elem.mk "a" [] none none []) [])
    (by decide)

/-- C5: whitespace-insensitive structural equality compares text and tail
after trim-normalization (absent equal to absent), so trees differing only
in insignificant whitespace compare equal, while any difference in the
attribute maps (after removing ignored keys) or in the number of children
always yields not-equal. -/
theorem claim_C5_eq_xml_normalization (a b : Elem) (ia : List String) (iw : Bool) :
    (wsEquiv a b = true → eq_xml a b ia true = true) ∧
    (pyStrip a.text ≠ pyStrip b.text → eq_xml a b ia true = false) ∧
    (pyStrip a.tail ≠ pyStrip b.tail → eq_xml a b ia true = false) ∧
    (dictEq (filterAttrs ia a.attrib) (filterAttrs ia b.attrib) = false →
      eq_xml a b ia iw = false) ∧
    (a.children.length ≠ b.children.length → eq_xml a b ia iw = false) := by
  refine ⟨fun h => wsEquiv_eq_xml a b ia h, fun h => ?_, fun h => ?_, fun h => ?_, fun h => ?_⟩
  · rw [eq_xml]
    by_cases h1 : a.tag ≠ b.tag
    · rw [if_pos h1]
    · rw [if_neg h1]
      by_cases h2 : ¬ dictEq (filterAttrs ia a.attrib) (filterAttrs ia b.attrib)
      · rw [if_pos h2]
      · rw [if_neg h2, if_pos (by simpa using h)]
  · rw [eq_xml]
    by_cases h1 : a.tag ≠ b.tag
    · rw [if_pos h1]
    · rw [if_neg h1]
      by_cases h2 : ¬ dictEq (filterAttrs ia a.attrib) (filterAttrs ia b.attrib)
      · rw [if_pos h2]
      · rw [if_neg h2]
        by_cases h3 : (if true then pyStrip a.text else a.text) ≠
            (if true then pyStrip b.text else b.text)
        · rw [if_pos h3]
        · rw [if_neg h3, if_pos (by simpa using h)]
  · rw [eq_xml]
    by_cases h1 : a.tag ≠ b.tag
    · rw [if_pos h1]
    · rw [if_neg h1, if_pos (by simp [h])]
  · have hlen : (sortByTag a.children).length ≠ (sortByTag b.children).length := by
      rw [(sortByTag_perm a.children).length_eq, (sortByTag_perm b.children).length_eq]
      exact h
    rw [eq_xml]
    by_cases h1 : a.tag ≠ b.tag
    · rw [if_pos h1]
    · rw [if_neg h1]
      by_cases h2 : ¬ dictEq (filterAttrs ia a.attrib) (filterAttrs ia b.attrib)
      · rw [if_pos h2]
      · rw [if_neg h2]
        by_cases h3 : (if iw then pyStrip a.text else a.text) ≠
            (if iw then pyStrip b.text else b.text)
        · rw [if_pos h3]
        · rw [if_neg h3]
          by_cases h4 : (if iw then pyStrip a.tail else a.tail) ≠
              (if iw then pyStrip b.tail else b.tail)
          · rw [if_pos h4]
          · rw [if_neg h4, if_pos hlen]

/-- Witness for C5 at concrete inputs: whitespace-only differences (text
trimmed, all-whitespace tail treated as absent) compare equal; an attribute
difference and a child-count difference compare unequal. -/
theorem claim_C5_witness :
    (wsEquiv (Elem.mk "p" [("k", "v")] (some " hi ") none [])
       (Elem.mk "p" [("k", "v")] (some "hi") (some "  ") []) = true ∧
     eq_xml (Elem.mk "p" [("k", "v")] (some " hi ") none [])
       (Elem.mk "p" [("k", "v")] (some "hi") (some "  ") []) [] true = true) ∧
    (dictEq (filterAttrs [] (Elem.mk "p" [("k", "v")] none none []).attrib)
       (filterAttrs [] (Elem.mk "p" [("k", "w")] none none []).attrib) = false ∧
     eq_xml (Elem.mk "p" [("k", "v")] none none [])
       (Elem.mk "p" [("k", "w")] none none []) [] true = false) ∧
    (pyStrip (Elem.mk "p" [] (some "hi") none []).text ≠
       (pyStrip (Elem.mk "p" [] (some "ho") none []).text) ∧
     eq_xml (Elem.mk "p" [] (some "hi") none [])
       (Elem.mk "p" [] (some "ho") none []) [] true = false) ∧
    ((Elem.mk "p" [] none none []).children.length ≠
       (Elem.mk "p" [] none none [Elem.mk "c" [] none none []]).children.length ∧
     eq_xml (Elem.mk "p" [] none none [])
       (Elem.mk "p" [] none none [Elem.mk "c" [] none none []]) [] true = false) :=
  ⟨⟨by decide, (claim_C5_eq_xml_normalization _ _ [] true).1 (by decide)⟩,
   ⟨by decide, (claim_C5_eq_xml_normalization _ _ [] true).2.2.2.1 (by decide)⟩,
   ⟨by decide, (claim_C5_eq_xml_normalization _ _ [] true).2.1 (by decide)⟩,
   ⟨by decide, (claim_C5_eq_xml_normalization _ _ [] true).2.2.2.2 (by decide)⟩⟩

/-- `parent.find(head)`: the first child whose tag matches, together with
its position among the children. -/
def findTag : List Elem → String → Option (Nat × Elem)
  | [], _ => none
  | c :: cs, t =>
    if c.tag = t then some (0, c)
    else (findTag cs t).map (fun p => (p.1 + 1, p.2))

/-- Replace the child at position `i` (in-place mutation of the tree seen
through an alias, rendered functionally). -/
def replaceChildAt (e : Elem) (i : Nat) (c : Elem) : Elem :=
  Elem.mk e.tag e.attrib e.text e.tail (e.children.set i c)

/-- `etree.SubElement(parent, head)` appends the new node as the parent's
last child. -/
def appendChild (e : Elem) (c : Elem) : Elem :=
  Elem.mk e.tag e.attrib e.text e.tail (e.children ++ [c])

/-- `Base.search` (base.py lines 78-104), rendered functionally: the result
is the tree after any creations together with the index path of the
resolved leaf (`None` in Python becomes `none`).  The Python code passes
`set_attributes` only at the top call and drops it on the recursive call
(`self.search(tail, child, create)`), which this embedding reproduces.
An empty tag list raises `IndexError` in Python (`tags[0]`); the claims
only concern non-empty paths, and the `[]` equation is junk. -/
def search (tags : List String) (element : Elem) (create : Bool)
    (set_attributes : Option (Elem → Elem)) : Elem × Option (List Nat) :=
  match tags with
  | [] => (element, none)
  | head :: tail =>
    match findTag element.children head with
    | some (i, child) =>
      if tail = [] then (element, some [i])
      else
        let r := search tail child create none
        (replaceChildAt element i r.1, r.2.map (fun p => i :: p))
    | none =>
      if create then
        let child0 := Elem.mk head [] none none []
        let child1 := match set_attributes with
          | some f => if tail = [] then f child0 else child0
          | none => child0
        let i := element.children.length
        if tail = [] then (appendChild element child1, some [i])
        else
          let r := search tail child1 create none
          (appendChild element r.1, r.2.map (fun p => i :: p))
      else (element, none)

/-- The node an index path denotes. -/
def nodeAt : Elem → List Nat → Option Elem
  | e, [] => some e
  | e, i :: is =>
    match e.children[i]? with
    | none => none
    | some c => nodeAt c is

/-- Spec-side walk: "resolve the leaf node by traversing the path without
creating missing nodes; if unresolved, the value is absent", taking the
first matching child at each level. -/
def resolve : List String → Elem → Option Elem
  | [], e => some e
  | t :: ts, e =>
    match findTag e.children t with
    | none => none
    | some (_, c) => resolve ts c

theorem findTag_sound : ∀ {cs : List Elem} {t : String} {i : Nat} {c : Elem},
    findTag cs t = some (i, c) → cs[i]? = some c := by
  intro cs
  induction cs with
  | nil => intro t i c h; exact Option.noConfusion h
  | cons x xs ih =>
    intro t i c h
    rw [findTag] at h
    by_cases hx : x.tag = t
    · rw [if_pos hx] at h
      cases h
      simp
    · rw [if_neg hx] at h
      cases hf : findTag xs t with
      | none => rw [hf] at h; exact Option.noConfusion h
      | some p =>
        rw [hf] at h
        obtain ⟨j, d⟩ := p
        simp only [Option.map_some'] at h
        cases h
        simpa using ih hf

theorem list_set_self : ∀ {l : List Elem} {i : Nat} {c : Elem},
    l[i]? = some c → l.set i c = l := by
  intro l
  induction l with
  | nil => intro i c h; exact Option.noConfusion h
  | cons x xs ih =>
    intro i c h
    cases i with
    | zero =>
      simp only [List.getElem?_cons_zero, Option.some.injEq] at h
      rw [← h]
      rfl
    | succ j =>
      simp only [List.getElem?_cons_succ] at h
      simp only [List.set_cons_succ, ih h]

/-- C9: with creation disabled, `search` leaves the tree unchanged and
either resolves the leaf reached by taking the first matching child at
each level, or returns absent when some level has no matching child. -/
theorem claim_C9_search_no_create_frame (tags : List String) (e : Elem)
    (stamp : Option (Elem → Elem)) (h : tags ≠ []) :
    (search tags e false stamp).1 = e ∧
    ((search tags e false stamp).2 = none → resolve tags e = none) ∧
    (∀ p, (search tags e false stamp).2 = some p →
      nodeAt e p = resolve tags e ∧ (resolve tags e).isSome) := by
  induction tags generalizing e stamp with
  | nil => exact absurd rfl h
  | cons head tail ih =>
    cases hf : findTag e.children head with
    | none =>
      refine ⟨?_, ?_, ?_⟩
      · simp [search, hf]
      · intro _
        simp [resolve, hf]
      · intro p hp
        simp [search, hf] at hp
    | some ic =>
      obtain ⟨i, child⟩ := ic
      have hchild : e.children[i]? = some child := findTag_sound hf
      by_cases ht : tail = []
      · subst ht
        refine ⟨by simp [search, hf], ?_, ?_⟩
        · intro hp
          simp [search, hf] at hp
        · intro p hp
          simp only [search, hf, if_pos, ite_true, Option.some.injEq] at hp
          subst hp
          simp [nodeAt, resolve, hf, hchild]
      · obtain ⟨ih1, ih2, ih3⟩ := ih child none ht
        refine ⟨?_, ?_, ?_⟩
        · simp only [search, hf, if_neg ht]
          rw [ih1]
          unfold replaceChildAt
          rw [list_set_self hchild]
          exact Elem.eta e
        · intro hp
          simp only [search, hf, if_neg ht, Option.map_eq_none'] at hp
          simp only [resolve, hf]
          exact ih2 hp
        · intro p hp
          simp only [search, hf, if_neg ht, Option.map_eq_some'] at hp
          obtain ⟨q, hq, rfl⟩ := hp
          obtain ⟨hq1, hq2⟩ := ih3 q hq
          refine ⟨?_, ?_⟩
          · simp only [nodeAt, hchild]
            simp only [resolve, hf]
            exact hq1
          · simp only [resolve, hf]
            exact hq2

/-- Witness for C9 at a concrete input: a two-level path over a small tree,
resolved without modification, and a missing path returning absent. -/
theorem claim_C9_witness :
    (search ["s", "n"]
        (Elem.mk "r" [] none none
          [Elem.mk "s" [] none none [Elem.mk "n" [] (some "1") none []]])
        false none).1 =
      Elem.mk "r" [] none none
        [Elem.mk "s" [] none none [Elem.mk "n" [] (some "1") none []]] ∧
    (∀ p, (search ["s", "n"]
        (Elem.mk "r" [] none none
          [Elem.mk "s" [] none none [Elem.mk "n" [] (some "1") none []]])
        false none).2 = some p →
      nodeAt (Elem.mk "r" [] none none
          [Elem.mk "s" [] none none [Elem.mk "n" [] (some "1") none []]]) p =
        resolve ["s", "n"]
          (Elem.mk "r" [] none none
            [Elem.mk "s" [] none none [Elem.mk "n" [] (some "1") none []]]) ∧
      (resolve ["s", "n"]
          (Elem.mk "r" [] none none
            [Elem.mk "s" [] none none [Elem.mk "n" [] (some "1") none []]])).isSome) :=
  ⟨(claim_C9_search_no_create_frame ["s", "n"] _ none (by decide)).1,
   (claim_C9_search_no_create_frame ["s", "n"] _ none (by decide)).2.2⟩

/-- C3 (failing input): creating the two-level path `a/b` under an empty
root with an attribute-stamping callback supplied.  The callback is dropped
on the recursive call (base.py line 104: `self.search(tail, child, create)`),
so the newly created leaf `b` of the full path ends up with an empty
attribute map, contrary to the claim; with a one-level path the same
callback does stamp the created leaf. -/
theorem claim_C3_search_drops_stamp_on_deep_leaf :
    search ["a", "b"] (Elem.mk "r" [] none none []) true
        (some (fun c => Elem.mk c.tag [("class", "metadata-tree")] c.text c.tail c.children)) =
      (Elem.mk "r" [] none none
        [Elem.mk "a" [] none none [Elem.mk "b" [] none none []]], some [0, 0]) ∧
    search ["a"] (Elem.mk "r" [] none none []) true
        (some (fun c => Elem.mk c.tag [("class", "metadata-tree")] c.text c.tail c.children)) =
      (Elem.mk "r" [] none none
        [Elem.mk "a" [("class", "metadata-tree")] none none []], some [0]) :=
  ⟨rfl, rfl⟩

/-- A typed property value.  Modelled from the spec: conversion kinds are
"numeric text to integer, literal true/false to boolean, or (for
nested-object bindings) wrap the found node" (spec 4.2). -/
inductive Value : Type where
  | vstr (s : String)
  | vint (n : Int)
  | vbool (b : Bool)
  | vnode (e : Elem)

/-- The conversion kind of a property binding.  Modelled from the spec:
"explicit per-type ordered table of field descriptors (name, path,
conversion kind, auto flag, default, ..., fixed-attributes-on-create)"
(spec 9); `cmarker` is the marker/back-reference field whose get-conversion
always returns absent (spec 4.7, field `parent`). -/
inductive ConvKind : Type where
  | cstr
  | cint
  | cbool
  | cnested
  | cmarker

/-- A property binding descriptor.  Modelled from the spec: `Property` lives
in `lxmlbind/property.py`, which is absent from the sources; fields follow
spec 4.2 ("path (also exposed as its '/'-split tag sequence), a
get-conversion function, a set-conversion function, an auto flag, a default
value, ..., optional fixed-attributes-to-stamp-on-create"). -/
structure PropertySpec : Type where
  tags : List String
  conv : ConvKind
  auto : Bool
  dflt : Option Value
  attributes : Option (List (String × String))

/-- The get-conversion applied to the resolved leaf.  Modelled from the
spec (4.2 instance read): string text is read as-is, numeric text becomes
an integer, literal "true"/"false" become booleans, a nested-object binding
wraps the found node, and a marker field always reads absent.  A conversion
failure raises in Python; it reads as absent here, a case outside every
claim. -/
def getConv : ConvKind → Elem → Option Value
  | .cstr, leaf => leaf.text.map Value.vstr
  | .cint, leaf => (leaf.text.bind String.toInt?).map Value.vint
  | .cbool, leaf => leaf.text.bind (fun t =>
      if t = "true" then some (Value.vbool true)
      else if t = "false" then some (Value.vbool false) else none)
  | .cnested, leaf => some (Value.vnode leaf)
  | .cmarker, _ => none

/-- The attribute-stamping callback a property supplies to `search`: set the
fixed attributes on the just-created (hence attribute-free) leaf.  Modelled
from the spec (4.2: "fixed attributes to stamp on the path's leaf node only
at the moment it is first created"). -/
def stampOf (p : PropertySpec) : Option (Elem → Elem) :=
  p.attributes.map (fun attrs => fun c => Elem.mk c.tag attrs c.text c.tail c.children)

/-- `Property.__get__` on an instance.  Modelled from the spec (4.2):
"resolve the leaf node by traversing the path without creating missing
nodes; if unresolved, the value is absent; otherwise apply the
get-conversion". -/
def propGet (p : PropertySpec) (e : Elem) : Option Value :=
  match resolve p.tags e with
  | none => none
  | some leaf => getConv p.conv leaf

/-- The text written by the scalar set-conversion.  Modelled from the spec
(4.2): "default scalar behavior replaces the leaf's text with a stringified
value (booleans lowercase to true/false)"; assigning `None` clears the
text (the fixture test writes `description = None` and round-trips an empty
element). -/
def scalarText : ConvKind → Option Value → Option String
  | _, none => none
  | .cstr, some (Value.vstr s) => some s
  | .cint, some (Value.vint n) => some (toString n)
  | .cbool, some (Value.vbool b) => some (if b then "true" else "false")
  | _, some _ => none

/-- Apply an update function to the node at an index path. -/
def updateAt : Elem → List Nat → (Elem → Elem) → Elem
  | e, [], f => f e
  | e, i :: is, f =>
    match e.children[i]? with
    | none => e
    | some c => replaceChildAt e i (updateAt c is f)

/-- Detach the leaf at the index path and append a replacement node as the
parent's last child.  Modelled from the spec (4.2): "the nested-object
conversion instead detaches any existing leaf node and appends the value's
own node in its place (position becomes last child)". -/
def replaceLeaf : Elem → List Nat → Elem → Elem
  | _, [], n => n
  | e, i :: [], n => Elem.mk e.tag e.attrib e.text e.tail (e.children.eraseIdx i ++ [n])
  | e, i :: is, n =>
    match e.children[i]? with
    | none => e
    | some c => replaceChildAt e i (replaceLeaf c is n)

/-- The set-conversion at the resolved leaf.  Modelled from the spec (4.2
instance write); the marker field's set-conversion is a no-op, and writing
`None` through a nested-object binding leaves the (already created) leaf in
place. -/
def applySetConv (k : ConvKind) (v : Option Value) (tree : Elem) (pa : List Nat) : Elem :=
  match k with
  | .cmarker => tree
  | .cnested =>
    match v with
    | some (Value.vnode n) => replaceLeaf tree pa n
    | _ => tree
  | _ => updateAt tree pa (fun leaf =>
      Elem.mk leaf.tag leaf.attrib (scalarText k v) leaf.tail leaf.children)

/-- `Property.__set__` on an instance.  Modelled from the spec (4.2):
"resolve the leaf node, creating any missing path segments (each newly
created intermediate node is empty; only the leaf, if newly created,
receives the fixed-attributes stamp); then apply the set-conversion" —
the resolution goes through the `Base.search` of base.py, which is in the
sources and is embedded above. -/
def propSet (p : PropertySpec) (v : Option Value) (e : Elem) : Elem :=
  let r := search p.tags e true (stampOf p)
  match r.2 with
  | none => r.1
  | some pa => applySetConv p.conv v r.1 pa

/-- One step of `Base._set_default_properties` (base.py lines 47-52): skip
non-auto members; populate an auto member with its default when its current
value is absent. -/
def defaultStep (acc : Elem) (member : PropertySpec) : Elem :=
  if member.auto = false then acc
  else if (propGet member acc).isNone then propSet member member.dflt acc
  else acc

/-- `Base._set_default_properties` (base.py lines 43-52): walk the classes
of `getmro(self.__class__)` in order, and each class's declared property
members in order, applying `defaultStep`. -/
def setDefaultProperties (mro : List (List PropertySpec)) (e : Elem) : Elem :=
  mro.foldl (fun acc class_ => class_.foldl defaultStep acc) e

/-- A binding type: the Python class name (for error text), its declared
tag, and the per-class property tables of its method-resolution order. -/
structure BindingType : Type where
  name : String
  tag : String
  mro : List (List PropertySpec)

/-- A bound object: wraps one tree node plus an optional non-owning parent
reference (base.py lines 30-32). -/
inductive Obj : Type where
  | mk (element : Elem) (parent : Option Obj)

def Obj.element : Obj → Elem
  | .mk e _ => e

def Obj.parent : Obj → Option Obj
  | .mk _ p => p

inductive BindError : Type where
  | tagMismatch (type expected actual : String)
  | parseFailure
deriving DecidableEq

/-- `Base.__init__` with an element supplied (base.py lines 18-33): the
element's tag must equal the class tag, else the constructor raises
carrying the class, the expected tag and the actual tag; on success the
parent pointer is stored and the auto-default pass runs. -/
def ofElement (T : BindingType) (element : Elem) (parent : Option Obj) :
    Except BindError Obj :=
  if element.tag ≠ T.tag then
    .error (.tagMismatch T.name T.tag element.tag)
  else
    .ok (Obj.mk (setDefaultProperties T.mro element) parent)

/-- `Base.__init__` with no element (base.py lines 23-24 and 35-41): a fresh
empty node with the class tag is synthesized, then defaults populate. -/
def newObj (T : BindingType) (parent : Option Obj) : Obj :=
  Obj.mk (setDefaultProperties T.mro (Elem.mk T.tag [] none none [])) parent

/-- The argument of `Base.__eq__` as Python sees it: `None`, another bound
object, or any non-binding object (which has no `_element`). -/
inductive EqArg : Type where
  | absent
  | bound (o : Obj)
  | foreign

/-- `Base.__eq__` (base.py lines 118-124): `None` compares unequal; any
other argument has its `_element` read — which, for a non-binding object,
raises `AttributeError`. -/
def beqBase (self : Obj) (other : EqArg) : Except String Bool :=
  match other with
  | .absent => .ok false
  | .bound o => .ok (eq_xml self.element o.element [] true)
  | .foreign => .error "AttributeError"

/-- `Base.__ne__` (base.py lines 126-130): the negation of `__eq__`
(so it propagates the same exception). -/
def bneBase (self : Obj) (other : EqArg) : Except String Bool :=
  (beqBase self other).map (fun b => !b)

/-- C4 (counterexample): comparing a bound object to a non-binding object
does not return not-equal — it raises an `AttributeError` reading
`other._element`, so object-level equality is not exception-free for every
argument. -/
theorem claim_C4_counterexample :
    beqBase (Obj.mk (Elem.mk "person" [] none none []) none) EqArg.foreign =
      Except.error "AttributeError" := rfl

/-- C4 (amended): comparing to an absent value returns not-equal without
raising and inequality returns its negation; comparing to another bound
object applies the tree comparator and never raises; but comparing to a
non-binding object raises an attribute error instead of returning
not-equal. -/
theorem claim_C4_eq_absent_amended (x : Obj) :
    beqBase x EqArg.absent = .ok false ∧
    bneBase x EqArg.absent = .ok true ∧
    (∀ y : Obj, beqBase x (EqArg.bound y) = .ok (eq_xml x.element y.element [] true) ∧
      bneBase x (EqArg.bound y) = .ok (!(eq_xml x.element y.element [] true))) ∧
    beqBase x EqArg.foreign = .error "AttributeError" :=
  ⟨rfl, rfl, fun _ => ⟨rfl, rfl⟩, rfl⟩

/-- Fixture bindings (spec 4.7; `lxmlbind/tests/example.py` is absent from
the sources, so these are modelled from the spec's field table). -/
def personFirst : PropertySpec := ⟨["first"], ConvKind.cstr, false, none, none⟩

def personLast : PropertySpec := ⟨["last"], ConvKind.cstr, false, none, none⟩

def PersonType : BindingType := ⟨"Person", "person", [[personFirst, personLast], []]⟩

def metadataParent : PropertySpec :=
  ⟨["parent"], ConvKind.cmarker, true, none,
   some [("class", "metadata-tree"), ("reference", "../../..")]⟩

/-- C7: after node resolution every auto-flagged property binding declared
anywhere in the ancestor chain is processed in the chain's order (the
chain's tables concatenated in order), an auto binding whose value is
currently absent is populated with that binding's default, and a binding
whose value is already present (for instance because an earlier ancestor's
default filled the same path) is skipped, leaving the tree unchanged. -/
theorem claim_C7_auto_default_population (mro : List (List PropertySpec)) (e : Elem) :
    setDefaultProperties mro e = mro.flatten.foldl defaultStep e ∧
    (∀ acc member, member.auto = true → (propGet member acc).isNone →
      defaultStep acc member = propSet member member.dflt acc) ∧
    (∀ acc member, ¬ (propGet member acc).isNone = true →
      defaultStep acc member = acc) := by
  refine ⟨?_, ?_, ?_⟩
  · induction mro generalizing e with
    | nil => rfl
    | cons c rest ih =>
      show List.foldl _ (c.foldl defaultStep e) rest = _
      rw [List.flatten_cons, List.foldl_append]
      exact ih (c.foldl defaultStep e)
  · intro acc member h1 h2
    simp [defaultStep, h1, h2]
  · intro acc member h
    unfold defaultStep
    by_cases ha : member.auto = false
    · rw [if_pos ha]
    · rw [if_neg ha, if_neg h]

/-- Witness for C7 at concrete inputs: the marker `parent` binding of the
metadata-string fixture is absent on a fresh node and is populated with its
default (materializing the stamped `<parent/>` leaf); a present binding
(`first` on a populated person) is skipped. -/
theorem claim_C7_witness :
    ((propGet metadataParent (Elem.mk "metadata-string" [] none none [])).isNone ∧
     defaultStep (Elem.mk "metadata-string" [] none none []) metadataParent =
       propSet metadataParent metadataParent.dflt
         (Elem.mk "metadata-string" [] none none []) ∧
     setDefaultProperties [[metadataParent]] (Elem.mk "metadata-string" [] none none []) =
       Elem.mk "metadata-string" [] none none
         [Elem.mk "parent" [("class", "metadata-tree"), ("reference", "../../..")]
           none none []]) ∧
    (¬ (propGet personFirst
          (Elem.mk "person" [] none none
            [Elem.mk "first" [] (some "John") none []])).isNone = true ∧
     defaultStep (Elem.mk "person" [] none none
         [Elem.mk "first" [] (some "John") none []]) personFirst =
       Elem.mk "person" [] none none [Elem.mk "first" [] (some "John") none []]) :=
  ⟨⟨by decide,
    (claim_C7_auto_default_population [[metadataParent]]
        (Elem.mk "metadata-string" [] none none [])).2.1 _ _ rfl (by decide),
    rfl⟩,
   ⟨by decide,
    (claim_C7_auto_default_population [[personFirst]]
        (Elem.mk "person" [] none none
          [Elem.mk "first" [] (some "John") none []])).2.2 _ _ (by decide)⟩⟩

/-- `List.append` (base.py lines 162-164): append the value's element as
the new last child and point the value's parent at the list. -/
def ListB.append (lst : Obj) (value : Obj) : Obj × Obj :=
  let lst' := Obj.mk (appendChild lst.element value.element) lst.parent
  (lst', Obj.mk value.element (some lst'))

/-- Appending a sequence of values in order. -/
def ListB.appendAll (lst : Obj) (vs : List Obj) : Obj :=
  vs.foldl (fun acc v => (ListB.append acc v).1) lst

/-- `List.__getitem__` (base.py lines 166-168): wrap the child node at
position `k` as a new instance of the declared element type, with the list
as parent (`self._of()(self._element[k])`); an out-of-range index raises
`IndexError` in Python and is `none` here. -/
def ListB.getitem (ofType : BindingType) (lst : Obj) (k : Nat) :
    Option (Except BindError Obj) :=
  (lst.element.children[k]?).map (fun c => ofElement ofType c (some lst))

/-- `List.__setitem__` (base.py lines 170-172). -/
def ListB.setitem (lst : Obj) (k : Nat) (value : Obj) : Obj × Obj :=
  let lst' := Obj.mk (replaceChildAt lst.element k value.element) lst.parent
  (lst', Obj.mk value.element (some lst'))

/-- `List.__delitem__` (base.py lines 174-179): remove only the underlying
node at position `k`. -/
def ListB.delitem (lst : Obj) (k : Nat) : Obj :=
  Obj.mk (Elem.mk lst.element.tag lst.element.attrib lst.element.text lst.element.tail
    (lst.element.children.eraseIdx k)) lst.parent

/-- `List.__len__` (base.py lines 184-185). -/
def ListB.len (lst : Obj) : Nat := lst.element.children.length

theorem foldl_defaultStep_no_auto : ∀ (c : List PropertySpec) (e : Elem),
    (∀ m ∈ c, m.auto = false) → c.foldl defaultStep e = e := by
  intro c
  induction c with
  | nil => intro e _; rfl
  | cons m ms ih =>
    intro e h
    show ms.foldl defaultStep (defaultStep e m) = e
    rw [show defaultStep e m = e by simp [defaultStep, h m (by simp)]]
    exact ih e (fun x hx => h x (by simp [hx]))

theorem setDefaultProperties_no_auto : ∀ (mro : List (List PropertySpec)) (e : Elem),
    (∀ ps ∈ mro, ∀ m ∈ ps, m.auto = false) → setDefaultProperties mro e = e := by
  intro mro
  induction mro with
  | nil => intro e _; rfl
  | cons c rest ih =>
    intro e h
    unfold setDefaultProperties
    rw [List.foldl_cons, foldl_defaultStep_no_auto c e (h c (by simp))]
    exact ih e (fun ps hps => h ps (by simp [hps]))

theorem appendAll_length : ∀ (vs : List Obj) (lst : Obj),
    (ListB.appendAll lst vs).element.children.length =
      lst.element.children.length + vs.length := by
  intro vs
  induction vs with
  | nil => intro lst; rfl
  | cons v vs ih =>
    intro lst
    show (ListB.appendAll (ListB.append lst v).1 vs).element.children.length = _
    rw [ih]
    simp [ListB.append, appendChild, Obj.element, Elem.children]
    omega

/-- C8: appending adds the value's own node as the new last child and sets
the value's parent to the list (so N appends onto an empty list give
length N); reading index `k` wraps the k-th child node as a new instance of
the declared element type with the list as parent; deleting index `k`
removes exactly that underlying child node and reduces the length by
one. -/
theorem claim_C8_list_operations (lst : Obj) (vs : List Obj) (v : Obj)
    (ofType : BindingType) (k : Nat) :
    ((ListB.appendAll lst vs).element.children.length =
      lst.element.children.length + vs.length) ∧
    ((ListB.append lst v).1.element.children = lst.element.children ++ [v.element] ∧
      (ListB.append lst v).2.element = v.element ∧
      (ListB.append lst v).2.parent = some (ListB.append lst v).1) ∧
    (∀ c, lst.element.children[k]? = some c → c.tag = ofType.tag →
      (∀ ps ∈ ofType.mro, ∀ m ∈ ps, m.auto = false) →
      ListB.getitem ofType lst k = some (Except.ok (Obj.mk c (some lst)))) ∧
    (k < lst.element.children.length →
      (ListB.delitem lst k).element.children =
        lst.element.children.take k ++ lst.element.children.drop (k + 1) ∧
      (ListB.delitem lst k).element.children.length =
        lst.element.children.length - 1) := by
  refine ⟨appendAll_length vs lst, ⟨rfl, rfl, rfl⟩, ?_, ?_⟩
  · intro c hc htag hauto
    simp only [ListB.getitem, hc, Option.map_some', Option.some.injEq]
    rw [ofElement, if_neg (not_not_intro htag)]
    rw [setDefaultProperties_no_auto ofType.mro c hauto]
  · intro hk
    constructor
    · show lst.element.children.eraseIdx k = _
      exact List.eraseIdx_eq_take_drop_succ _ _
    · show (lst.element.children.eraseIdx k).length = _
      rw [List.length_eraseIdx_of_lt hk]

/-- Witness for C8 at concrete inputs: a singleton list of `base`-typed
items; two appends, a read of index 0, and a delete of index 0. -/
theorem claim_C8_witness :
    ((ListB.appendAll
        (Obj.mk (Elem.mk "list" [] none none [Elem.mk "base" [] (some "x") none []]) none)
        [Obj.mk (Elem.mk "base" [] none none []) none,
         Obj.mk (Elem.mk "base" [] none none []) none]).element.children.length = 3) ∧
    (ListB.getitem (BindingType.mk "Base" "base" [[]])
        (Obj.mk (Elem.mk "list" [] none none [Elem.mk "base" [] (some "x") none []]) none)
        0 =
      some (Except.ok (Obj.mk (Elem.mk "base" [] (some "x") none [])
        (some (Obj.mk (Elem.mk "list" [] none none
          [Elem.mk "base" [] (some "x") none []]) none))))) ∧
    ((ListB.delitem
        (Obj.mk (Elem.mk "list" [] none none [Elem.mk "base" [] (some "x") none []]) none)
        0).element.children.length = 0) :=
  ⟨(claim_C8_list_operations
      (Obj.mk (Elem.mk "list" [] none none [Elem.mk "base" [] (some "x") none []]) none)
      [Obj.mk (Elem.mk "base" [] none none []) none,
       Obj.mk (Elem.mk "base" [] none none []) none]
      (Obj.mk (Elem.mk "base" [] none none []) none)
      (BindingType.mk "Base" "base" [[]]) 0).1,
   (claim_C8_list_operations
      (Obj.mk (Elem.mk "list" [] none none [Elem.mk "base" [] (some "x") none []]) none)
      [] (Obj.mk (Elem.mk "base" [] none none []) none)
      (BindingType.mk "Base" "base" [[]]) 0).2.2.1
      (Elem.mk "base" [] (some "x") none []) rfl rfl
      (by
        intro ps hps m hm
        rw [List.mem_singleton] at hps
        subst hps
        cases hm),
   ((claim_C8_list_operations
      (Obj.mk (Elem.mk "list" [] none none [Elem.mk "base" [] (some "x") none []]) none)
      [] (Obj.mk (Elem.mk "base" [] none none []) none)
      (BindingType.mk "Base" "base" [[]]) 0).2.2.2 (by decide)).2⟩

/-- Characters allowed in a tag or attribute name by this model of the XML
boundary (a superset of what `lxml` accepts, which keeps the well-formedness
hypothesis weak). -/
def isNameChar (c : Char) : Bool :=
  !(c == ' ' || c == '\t' || c == '\n' || c == '\r' || c == '<' || c == '>'
    || c == '/' || c == '=' || c == '"' || c == '&')

def isWsChar (c : Char) : Bool :=
  c == ' ' || c == '\t' || c == '\n' || c == '\r'

/-- XML escaping of one character (`&`, `<`, `>` always; `"` inside quoted
attribute values).  Modelled from the spec: serialization is the third-party
`lxml` boundary ("well-formed XML text in, well-formed XML text out",
spec 6). -/
def escapeChar (quot : Bool) (c : Char) : List Char :=
  if c = '&' then "&amp;".data
  else if c = '<' then "&lt;".data
  else if c = '>' then "&gt;".data
  else if quot = true ∧ c = '"' then "&quot;".data
  else [c]

def escapeStr (quot : Bool) : List Char → List Char
  | [] => []
  | c :: cs => escapeChar quot c ++ escapeStr quot cs

def textChars : Option String → List Char
  | none => []
  | some s => s.data

def printAttrs : List (String × String) → List Char
  | [] => []
  | (k, v) :: rest =>
    ' ' :: (k.data ++ '=' :: '"' :: (escapeStr true v.data ++ '"' :: printAttrs rest))

mutual
/-- `etree.tostring` (modelled from the spec's external-interface section):
open tag with attributes, text, serialized children (each child carrying its
own tail), closing tag, and the element's own tail; an element with no text
and no children is self-closing. -/
def printElem : Elem → List Char
  | .mk tag attrib text tail children =>
    '<' :: (tag.data ++ printAttrs attrib ++
    (match text, children with
     | none, [] => ['/', '>']
     | _, _ =>
       '>' :: (escapeStr false (textChars text) ++ printChildren children ++
         '<' :: '/' :: (tag.data ++ ['>']))) ++
    escapeStr false (textChars tail))
termination_by structural e => e

def printChildren : List Elem → List Char
  | [] => []
  | c :: cs => printElem c ++ printChildren cs
termination_by structural l => l
end

/-- Inverse of `escapeChar`/`escapeStr`: the four standard entities are
decoded, a bare `&` is a parse error, everything else is kept. -/
def unescape : List Char → Option (List Char)
  | [] => some []
  | c :: rest =>
    if c = '&' then
      match rest with
      | 'a' :: 'm' :: 'p' :: ';' :: r => (unescape r).map (fun t => '&' :: t)
      | 'l' :: 't' :: ';' :: r => (unescape r).map (fun t => '<' :: t)
      | 'g' :: 't' :: ';' :: r => (unescape r).map (fun t => '>' :: t)
      | 'q' :: 'u' :: 'o' :: 't' :: ';' :: r => (unescape r).map (fun t => '"' :: t)
      | _ => none
    else (unescape rest).map (fun t => c :: t)

/-- Parse a run of character data (text or tail): everything up to the next
`<` or the end of input, unescaped; an empty run reads as absent. -/
def parseCData (l : List Char) : Option (Option String × List Char) :=
  let raw := l.takeWhile (fun c => !(c == '<'))
  let rest := l.dropWhile (fun c => !(c == '<'))
  (unescape raw).map (fun t => (if t = [] then none else some (⟨t⟩ : String), rest))

/-- Parse the attribute list of an open tag, up to the `/` or `>` that ends
it.  The fuel only bounds the number of attributes. -/
def parseAttrs : Nat → List Char → Option (List (String × String) × List Char)
  | 0, _ => none
  | fuel + 1, l =>
    let l1 := l.dropWhile isWsChar
    match l1 with
    | [] => none
    | c :: _ =>
      if c = '/' ∨ c = '>' then some ([], l1)
      else
        let name := l1.takeWhile isNameChar
        let r1 := l1.dropWhile isNameChar
        if name = [] then none
        else
          match r1 with
          | '=' :: '"' :: r2 =>
            let raw := r2.takeWhile (fun c => !(c == '"'))
            let r3 := r2.dropWhile (fun c => !(c == '"'))
            match r3 with
            | '"' :: r4 =>
              match unescape raw with
              | none => none
              | some v =>
                (parseAttrs fuel r4).map (fun p => (((⟨name⟩ : String), (⟨v⟩ : String)) :: p.1, p.2))
            | _ => none
          | _ => none

mutual
/-- `etree.XML`, one element (modelled from the spec's external-interface
section): open tag, attributes, either `/>` or text, children and a
matching close tag; the element's following tail text is consumed too.
The fuel bounds the nesting structure. -/
def parseElemF : Nat → List Char → Option (Elem × List Char)
  | 0, _ => none
  | fuel + 1, input =>
    match input with
    | '<' :: r0 =>
      let name := r0.takeWhile isNameChar
      let r1 := r0.dropWhile isNameChar
      if name = [] then none
      else
        match parseAttrs (r1.length + 1) r1 with
        | none => none
        | some (attrs, r2) =>
          match r2 with
          | '/' :: '>' :: r3 =>
            match parseCData r3 with
            | none => none
            | some (tl, r4) => some (Elem.mk ⟨name⟩ attrs none tl [], r4)
          | '>' :: r3 =>
            match parseCData r3 with
            | none => none
            | some (txt, r4) =>
              match parseChildrenF fuel r4 with
              | none => none
              | some (cs, r5) =>
                match r5 with
                | '<' :: '/' :: r6 =>
                  let name2 := r6.takeWhile isNameChar
                  let r7 := r6.dropWhile isNameChar
                  if name2 = name then
                    match r7 with
                    | '>' :: r8 =>
                      match parseCData r8 with
                      | none => none
                      | some (tl, r9) => some (Elem.mk ⟨name⟩ attrs txt tl cs, r9)
                    | _ => none
                  else none
                | _ => none
          | _ => none
    | _ => none

def parseChildrenF : Nat → List Char → Option (List Elem × List Char)
  | 0, _ => none
  | fuel + 1, input =>
    match input with
    | '<' :: c :: r =>
      if c = '/' then some ([], input)
      else
        match parseElemF fuel ('<' :: c :: r) with
        | none => none
        | some (e, rest) =>
          match parseChildrenF fuel rest with
          | none => none
          | some (es, rest2) => some (e :: es, rest2)
    | _ => some ([], input)
end

def canonOpt : Option String → Option String
  | none => none
  | some s => if s = "" then none else some s

mutual
/-- What survives one print/parse round trip exactly: empty text or tail
becomes absent (it prints as nothing); everything else is untouched. -/
def canonE : Elem → Elem
  | .mk t a x l c => Elem.mk t a (canonOpt x) (canonOpt l) (canonL c)
termination_by structural e => e

def canonL : List Elem → List Elem
  | [] => []
  | e :: es => canonE e :: canonL es
termination_by structural l => l
end

def wfName (l : List Char) : Bool :=
  !(l = []) && l.all isNameChar

def wfAttrs : List (String × String) → Bool
  | [] => true
  | (k, _) :: rest => wfName k.data && wfAttrs rest

mutual
/-- Well-formedness an `lxml` tree guarantees by construction: tags and
attribute names are non-empty and contain no markup characters. -/
def wfElem : Elem → Bool
  | .mk t a _ _ c => wfName t.data && wfAttrs a && wfChildren c
termination_by structural e => e

def wfChildren : List Elem → Bool
  | [] => true
  | e :: es => wfElem e && wfChildren es
termination_by structural l => l
end

mutual
/-- Fuel sufficient for `parseElemF` on this element's serialization. -/
def needElem : Elem → Nat
  | .mk _ _ _ _ c => 1 + needChildren c
termination_by structural e => e

def needChildren : List Elem → Nat
  | [] => 1
  | c :: cs => 1 + max (needElem c) (needChildren cs)
termination_by structural l => l
end

/-- `Base.to_xml` (base.py lines 65-69): serialize the wrapped element. -/
def to_xml (o : Obj) : String := ⟨printElem o.element⟩

/-- `etree.XML` on a whole document: one root element, no content after it
except whitespace (which `lxml` drops rather than keeping as a root
tail). -/
def parseXML (s : String) : Option Elem :=
  match parseElemF (s.length + 1) s.data with
  | some (e, []) =>
    match e.tail with
    | none => some e
    | some t =>
      if strip t = "" then some (Elem.mk e.tag e.attrib e.text none e.children)
      else none
  | _ => none

/-- `Base.from_xml` (base.py lines 71-76): parse, then construct with the
same tag check as node-based construction. -/
def from_xml (T : BindingType) (s : String) : Except BindError Obj :=
  match parseXML s with
  | none => .error .parseFailure
  | some e => ofElement T e none

/-- Splitting a `takeWhile`/`dropWhile` scan at a known boundary. -/
theorem span_boundary (p : Char → Bool) :
    ∀ (l rest : List Char), (∀ c ∈ l, p c = true) →
      (∀ c, rest.head? = some c → p c = false) →
      (l ++ rest).takeWhile p = l ∧ (l ++ rest).dropWhile p = rest := by
  intro l
  induction l with
  | nil =>
    intro rest h1 h2
    cases rest with
    | nil => exact ⟨rfl, rfl⟩
    | cons c r =>
      have hc := h2 c rfl
      exact ⟨by simp [List.takeWhile_cons, hc], by simp [List.dropWhile_cons, hc]⟩
  | cons a l ih =>
    intro rest h1 h2
    have ha := h1 a (by simp)
    obtain ⟨iht, ihd⟩ := ih rest (fun c hc => h1 c (by simp [hc])) h2
    constructor
    · simp only [List.cons_append, List.takeWhile_cons, ha, if_true]
      rw [iht]
    · simp only [List.cons_append, List.dropWhile_cons, ha, if_true]
      rw [ihd]

theorem nameChar_props {c : Char} (h : isNameChar c = true) :
    isWsChar c = false ∧ (c == '<') = false ∧ c ≠ '/' ∧ c ≠ '>' ∧ c ≠ '=' ∧
      (c == '"') = false := by
  unfold isNameChar at h
  simp only [Bool.not_eq_true', Bool.or_eq_false_iff, beq_eq_false_iff_ne] at h
  obtain ⟨⟨⟨⟨⟨⟨⟨⟨⟨h1, h2⟩, h3⟩, h4⟩, h5⟩, h6⟩, h7⟩, h8⟩, h9⟩, h10⟩ := h
  refine ⟨?_, ?_, h7, h6, h8, ?_⟩
  · unfold isWsChar
    simp [h1, h2, h3, h4]
  · exact beq_eq_false_iff_ne.mpr h5
  · exact beq_eq_false_iff_ne.mpr h9

theorem escapeStr_not_lt (q : Bool) :
    ∀ (s : List Char), ∀ x ∈ escapeStr q s, (x == '<') = false := by
  intro s
  induction s with
  | nil => intro x hx; cases hx
  | cons c cs ih =>
    intro x hx
    rw [escapeStr, List.mem_append] at hx
    rcases hx with hx | hx
    · unfold escapeChar at hx
      by_cases h1 : c = '&'
      · rw [if_pos h1] at hx; revert hx; revert x; decide
      · rw [if_neg h1] at hx
        by_cases h2 : c = '<'
        · rw [if_pos h2] at hx; revert hx; revert x; decide
        · rw [if_neg h2] at hx
          by_cases h3 : c = '>'
          · rw [if_pos h3] at hx; revert hx; revert x; decide
          · rw [if_neg h3] at hx
            by_cases h4 : q = true ∧ c = '"'
            · rw [if_pos h4] at hx; revert hx; revert x; decide
            · rw [if_neg h4] at hx
              rw [List.mem_singleton] at hx
              subst hx
              exact beq_eq_false_iff_ne.mpr h2
    · exact ih x hx

theorem escapeStr_not_quot :
    ∀ (s : List Char), ∀ x ∈ escapeStr true s, (x == '"') = false := by
  intro s
  induction s with
  | nil => intro x hx; cases hx
  | cons c cs ih =>
    intro x hx
    rw [escapeStr, List.mem_append] at hx
    rcases hx with hx | hx
    · unfold escapeChar at hx
      by_cases h1 : c = '&'
      · rw [if_pos h1] at hx; revert hx; revert x; decide
      · rw [if_neg h1] at hx
        by_cases h2 : c = '<'
        · rw [if_pos h2] at hx; revert hx; revert x; decide
        · rw [if_neg h2] at hx
          by_cases h3 : c = '>'
          · rw [if_pos h3] at hx; revert hx; revert x; decide
          · rw [if_neg h3] at hx
            by_cases h4 : true = true ∧ c = '"'
            · rw [if_pos h4] at hx; revert hx; revert x; decide
            · rw [if_neg h4] at hx
              rw [List.mem_singleton] at hx
              subst hx
              refine beq_eq_false_iff_ne.mpr ?_
              intro hc
              exact h4 ⟨rfl, hc⟩
    · exact ih x hx

theorem unescape_cons_ne_amp (c : Char) (h : c ≠ '&') (rest : List Char) :
    unescape (c :: rest) = (unescape rest).map (fun t => c :: t) := by
  by_cases h2 : rest.take 4 = ['a', 'm', 'p', ';']
  · have hr : rest = 'a' :: 'm' :: 'p' :: ';' :: rest.drop 4 := by
      conv_lhs => rw [← List.take_append_drop 4 rest]
      rw [h2]
      rfl
    rw [hr, unescape.eq_2, if_neg h]
  · by_cases h3 : rest.take 3 = ['l', 't', ';']
    · have hr : rest = 'l' :: 't' :: ';' :: rest.drop 3 := by
        conv_lhs => rw [← List.take_append_drop 3 rest]
        rw [h3]
        rfl
      rw [hr, unescape.eq_3, if_neg h]
    · by_cases h4 : rest.take 3 = ['g', 't', ';']
      · have hr : rest = 'g' :: 't' :: ';' :: rest.drop 3 := by
          conv_lhs => rw [← List.take_append_drop 3 rest]
          rw [h4]
          rfl
        rw [hr, unescape.eq_4, if_neg h]
      · by_cases h5 : rest.take 5 = ['q', 'u', 'o', 't', ';']
        · have hr : rest = 'q' :: 'u' :: 'o' :: 't' :: ';' :: rest.drop 5 := by
            conv_lhs => rw [← List.take_append_drop 5 rest]
            rw [h5]
            rfl
          rw [hr, unescape.eq_5, if_neg h]
        · rw [unescape.eq_6 c rest ?ha ?hl ?hg ?hq, if_neg h]
          case ha => intro r hr; exact h2 (by rw [hr]; rfl)
          case hl => intro r hr; exact h3 (by rw [hr]; rfl)
          case hg => intro r hr; exact h4 (by rw [hr]; rfl)
          case hq => intro r hr; exact h5 (by rw [hr]; rfl)

theorem unescape_escapeStr (q : Bool) :
    ∀ (s : List Char), unescape (escapeStr q s) = some s := by
  intro s
  induction s with
  | nil => rfl
  | cons c cs ih =>
    show unescape (escapeChar q c ++ escapeStr q cs) = some (c :: cs)
    unfold escapeChar
    by_cases h1 : c = '&'
    · subst h1
      show unescape ('&' :: 'a' :: 'm' :: 'p' :: ';' :: escapeStr q cs) = _
      simp [unescape, ih]
    · rw [if_neg h1]
      by_cases h2 : c = '<'
      · subst h2
        show unescape ('&' :: 'l' :: 't' :: ';' :: escapeStr q cs) = _
        simp [unescape, ih]
      · rw [if_neg h2]
        by_cases h3 : c = '>'
        · subst h3
          show unescape ('&' :: 'g' :: 't' :: ';' :: escapeStr q cs) = _
          simp [unescape, ih]
        · rw [if_neg h3]
          by_cases h4 : q = true ∧ c = '"'
          · rw [if_pos h4]
            show unescape ('&' :: 'q' :: 'u' :: 'o' :: 't' :: ';' :: escapeStr q cs) = _
            rw [h4.2]
            simp [unescape, ih]
          · rw [if_neg h4]
            show unescape (c :: escapeStr q cs) = _
            rw [unescape_cons_ne_amp c h1, ih]
            rfl

theorem head_lt_of_rest {rest : List Char} (h : rest = [] ∨ ∃ r, rest = '<' :: r) :
    ∀ c, rest.head? = some c → (!(c == '<')) = false := by
  intro c hc
  rcases h with h | ⟨r, h⟩
  · subst h; cases hc
  · subst h
    simp only [List.head?_cons, Option.some.injEq] at hc
    subst hc
    rfl

theorem parseCData_print (x : Option String) (rest : List Char)
    (hrest : rest = [] ∨ ∃ r, rest = '<' :: r) :
    parseCData (escapeStr false (textChars x) ++ rest) = some (canonOpt x, rest) := by
  obtain ⟨ht, hd⟩ := span_boundary (fun c => !(c == '<')) (escapeStr false (textChars x)) rest
    (fun c hc => by simp [escapeStr_not_lt false _ c hc])
    (head_lt_of_rest hrest)
  show (unescape ((escapeStr false (textChars x) ++ rest).takeWhile (fun c => !(c == '<')))).map
      (fun t => (if t = [] then none else some (⟨t⟩ : String),
        (escapeStr false (textChars x) ++ rest).dropWhile (fun c => !(c == '<')))) =
    some (canonOpt x, rest)
  rw [ht, hd, unescape_escapeStr]
  simp only [Option.map_some']
  cases x with
  | none => rfl
  | some s =>
    show some (if s.data = [] then none else some (⟨s.data⟩ : String), rest) =
      some (canonOpt (some s), rest)
    by_cases hs : s = ""
    · subst hs; rfl
    · have hne : s.data ≠ [] := by
        intro hh
        apply hs
        cases s
        simp only at hh
        rw [hh]
      rw [if_neg hne]
      show some (some s, rest) = some (canonOpt (some s), rest)
      rw [show canonOpt (some s) = some s by
        show (if s = "" then none else some s : Option String) = some s
        rw [if_neg hs]]

theorem wfName_parts {n : List Char} (h : wfName n = true) :
    n ≠ [] ∧ ∀ c ∈ n, isNameChar c = true := by
  unfold wfName at h
  simp only [Bool.and_eq_true, Bool.not_eq_true', decide_eq_false_iff_not] at h
  exact ⟨h.1, List.all_eq_true.mp h.2⟩

theorem printAttrs_length (attrs : List (String × String)) :
    attrs.length ≤ (printAttrs attrs).length := by
  induction attrs with
  | nil => simp [printAttrs]
  | cons p rest ih =>
    obtain ⟨k, v⟩ := p
    simp only [printAttrs, List.length_cons, List.length_append]
    omega

theorem parseAttrs_print : ∀ (attrs : List (String × String)) (F : Nat) (rest : List Char),
    attrs.length < F → wfAttrs attrs = true →
    (∃ r, rest = '/' :: r ∨ rest = '>' :: r) →
    parseAttrs F (printAttrs attrs ++ rest) = some (attrs, rest) := by
  intro attrs
  induction attrs with
  | nil =>
    intro F rest hF _ hrest
    cases F with
    | zero => omega
    | succ F =>
      obtain ⟨r, hr⟩ := hrest
      rcases hr with hr | hr
      · subst hr; rfl
      · subst hr; rfl
  | cons p attrs ih =>
    intro F rest hF hwf hrest
    obtain ⟨k, v⟩ := p
    cases F with
    | zero => omega
    | succ F =>
      have hwf' : wfName k.data = true ∧ wfAttrs attrs = true := by
        unfold wfAttrs at hwf
        simpa [Bool.and_eq_true] using hwf
      obtain ⟨hkne, hkall⟩ := wfName_parts hwf'.1
      cases hkd : k.data with
      | nil => exact absurd hkd hkne
      | cons kh kt =>
        have hknp := nameChar_props (hkall kh (by rw [hkd]; simp))
        show parseAttrs (F + 1)
          ((' ' :: (k.data ++ '=' :: '"' :: (escapeStr true v.data ++ '"' :: printAttrs attrs)))
            ++ rest) = some ((k, v) :: attrs, rest)
        simp only [List.cons_append, List.append_assoc]
        have hdw : (' ' :: (k.data ++ '=' :: '"' ::
            (escapeStr true v.data ++ ('"' :: (printAttrs attrs ++ rest))))).dropWhile isWsChar =
            kh :: (kt ++ '=' :: '"' ::
              (escapeStr true v.data ++ ('"' :: (printAttrs attrs ++ rest)))) := by
          rw [List.dropWhile_cons]
          rw [show isWsChar ' ' = true from rfl]
          simp only [if_true]
          rw [hkd, List.cons_append, List.dropWhile_cons, hknp.1]
          simp
        obtain ⟨hname, hrest1⟩ := span_boundary isNameChar k.data
          ('=' :: '"' :: (escapeStr true v.data ++ ('"' :: (printAttrs attrs ++ rest))))
          hkall (by intro c hc; simp only [List.head?_cons, Option.some.injEq] at hc; subst hc; rfl)
        rw [hkd] at hname hrest1
        simp only [List.cons_append] at hname hrest1
        obtain ⟨hval, hrest2⟩ := span_boundary (fun c => !(c == '"')) (escapeStr true v.data)
          ('"' :: (printAttrs attrs ++ rest))
          (fun c hc => by simp [escapeStr_not_quot _ c hc])
          (by intro c hc; simp only [List.head?_cons, Option.some.injEq] at hc; subst hc; rfl)
        have hlen : attrs.length < F := by
          simp only [List.length_cons] at hF
          omega
        have hihr := ih F rest hlen hwf'.2 hrest
        simp only [parseAttrs, hdw, hname, hrest1, hval, hrest2, unescape_escapeStr, hihr,
          Option.map_some', hknp.2.2.1, hknp.2.2.2.1]
        rw [← hkd]
        simp
        exact hkne

theorem printElem_head (e : Elem) : ∃ r, printElem e = '<' :: r := by
  cases e
  exact ⟨_, rfl⟩

theorem printElem_length_pos (e : Elem) : 1 ≤ (printElem e).length := by
  obtain ⟨r, hr⟩ := printElem_head e
  rw [hr]
  simp

mutual
theorem needElem_le_print (e : Elem) : needElem e + 1 ≤ (printElem e).length := by
  cases e with
  | mk t a x l c =>
    show 1 + needChildren c + 1 ≤ _
    cases x with
    | none =>
      cases c with
      | nil =>
        simp only [printElem, needChildren, List.length_cons, List.length_append]
        omega
      | cons c0 cs =>
        have hc := needChildren_le_print (c0 :: cs)
        simp only [printElem, List.length_cons, List.length_append] at *
        omega
    | some s =>
      have hc := needChildren_le_print c
      simp only [printElem, List.length_cons, List.length_append] at *
      omega
termination_by structural e

theorem needChildren_le_print (cs : List Elem) :
    needChildren cs ≤ (printChildren cs).length + 1 := by
  cases cs with
  | nil => simp [needChildren, printChildren]
  | cons c cs =>
    have h1 := needElem_le_print c
    have h2 := needChildren_le_print cs
    have h3 := printElem_length_pos c
    show 1 + max (needElem c) (needChildren cs) ≤ _
    simp only [printChildren, List.length_append]
    rcases max_cases (needElem c) (needChildren cs) with ⟨hm, _⟩ | ⟨hm, _⟩ <;> rw [hm] <;> omega
termination_by structural cs
end

theorem parseElemF_print_selfclosing (f : Nat) (t : String) (a : List (String × String))
    (l : Option String) (rest : List Char)
    (hw1 : wfName t.data = true) (hw2 : wfAttrs a = true)
    (hrest : rest = [] ∨ ∃ r, rest = '<' :: r) :
    parseElemF (f + 1) (('<' :: (t.data ++ printAttrs a ++ ['/', '>'] ++
      escapeStr false (textChars l))) ++ rest) =
    some (Elem.mk t a none (canonOpt l) [], rest) := by
  obtain ⟨htne, htall⟩ := wfName_parts hw1
  cases htd : t.data with
  | nil => exact absurd htd htne
  | cons th tt =>
    have hheadA : ∀ c', (printAttrs a ++
        ('/' :: '>' :: (escapeStr false (textChars l) ++ rest))).head? = some c' →
        isNameChar c' = false := by
      cases a with
      | nil =>
        intro c' hc'
        simp only [printAttrs, List.nil_append, List.head?_cons, Option.some.injEq] at hc'
        subst hc'
        rfl
      | cons p a' =>
        obtain ⟨k0, v0⟩ := p
        intro c' hc'
        simp only [printAttrs, List.cons_append, List.head?_cons, Option.some.injEq] at hc'
        subst hc'
        rfl
    obtain ⟨hname, hrest1⟩ := span_boundary isNameChar t.data
      (printAttrs a ++ ('/' :: '>' :: (escapeStr false (textChars l) ++ rest))) htall hheadA
    rw [htd] at hname hrest1
    simp only [List.cons_append] at hname hrest1
    have hattrs := parseAttrs_print a
      ((printAttrs a ++ ('/' :: '>' :: (escapeStr false (textChars l) ++ rest))).length + 1)
      ('/' :: '>' :: (escapeStr false (textChars l) ++ rest))
      (by
        have := printAttrs_length a
        simp only [List.length_append]
        omega)
      hw2 ⟨'>' :: (escapeStr false (textChars l) ++ rest), Or.inl rfl⟩
    have hcd := parseCData_print l rest hrest
    simp only [List.cons_append, List.append_assoc]
    simp only [parseElemF, htd, List.cons_append, List.nil_append, hname, hrest1, hattrs, hcd,
      Option.map_some']
    rw [← htd]
    simp
    exact htne

theorem parseElemF_print_open (f : Nat) (t : String) (a : List (String × String))
    (x l : Option String) (c : List Elem) (rest : List Char)
    (hw1 : wfName t.data = true) (hw2 : wfAttrs a = true)
    (hrest : rest = [] ∨ ∃ r, rest = '<' :: r)
    (hch : parseChildrenF f (printChildren c ++
      ('<' :: '/' :: (t.data ++ '>' :: (escapeStr false (textChars l) ++ rest)))) =
      some (canonL c, '<' :: '/' :: (t.data ++ '>' :: (escapeStr false (textChars l) ++ rest)))) :
    parseElemF (f + 1) (('<' :: (t.data ++ printAttrs a ++
      ('>' :: (escapeStr false (textChars x) ++ printChildren c ++
        '<' :: '/' :: (t.data ++ ['>']))) ++ escapeStr false (textChars l))) ++ rest) =
    some (Elem.mk t a (canonOpt x) (canonOpt l) (canonL c), rest) := by
  obtain ⟨htne, htall⟩ := wfName_parts hw1
  cases htd : t.data with
  | nil => exact absurd htd htne
  | cons th tt =>
    have hheadA : ∀ c', (printAttrs a ++
        ('>' :: (escapeStr false (textChars x) ++ (printChildren c ++
          ('<' :: '/' :: (t.data ++ '>' :: (escapeStr false (textChars l) ++ rest))))))).head? =
          some c' → isNameChar c' = false := by
      cases a with
      | nil =>
        intro c' hc'
        simp only [printAttrs, List.nil_append, List.head?_cons, Option.some.injEq] at hc'
        subst hc'
        rfl
      | cons p a' =>
        obtain ⟨k0, v0⟩ := p
        intro c' hc'
        simp only [printAttrs, List.cons_append, List.head?_cons, Option.some.injEq] at hc'
        subst hc'
        rfl
    obtain ⟨hname, hrest1⟩ := span_boundary isNameChar t.data
      (printAttrs a ++ ('>' :: (escapeStr false (textChars x) ++ (printChildren c ++
        ('<' :: '/' :: (t.data ++ '>' :: (escapeStr false (textChars l) ++ rest)))))))
      htall hheadA
    have hattrs := parseAttrs_print a
      ((printAttrs a ++ ('>' :: (escapeStr false (textChars x) ++ (printChildren c ++
          ('<' :: '/' :: (t.data ++ '>' :: (escapeStr false (textChars l) ++ rest))))))).length + 1)
      ('>' :: (escapeStr false (textChars x) ++ (printChildren c ++
        ('<' :: '/' :: (t.data ++ '>' :: (escapeStr false (textChars l) ++ rest))))))
      (by
        have := printAttrs_length a
        simp only [List.length_append]
        omega)
      hw2 ⟨escapeStr false (textChars x) ++ (printChildren c ++
        ('<' :: '/' :: (t.data ++ '>' :: (escapeStr false (textChars l) ++ rest)))), Or.inr rfl⟩
    have hsufhead : printChildren c ++
        ('<' :: '/' :: (t.data ++ '>' :: (escapeStr false (textChars l) ++ rest))) = [] ∨
        ∃ r', printChildren c ++
          ('<' :: '/' :: (t.data ++ '>' :: (escapeStr false (textChars l) ++ rest))) = '<' :: r' := by
      refine Or.inr ?_
      cases c with
      | nil => exact ⟨_, rfl⟩
      | cons c0 cs =>
        obtain ⟨rr, hrr⟩ := printElem_head c0
        refine ⟨rr ++ (printChildren cs ++
          ('<' :: '/' :: (t.data ++ '>' :: (escapeStr false (textChars l) ++ rest)))), ?_⟩
        show printElem c0 ++ printChildren cs ++ _ = _
        rw [hrr]
        simp [List.append_assoc]
    have hcdx := parseCData_print x (printChildren c ++
      ('<' :: '/' :: (t.data ++ '>' :: (escapeStr false (textChars l) ++ rest)))) hsufhead
    obtain ⟨hname2, hrest2⟩ := span_boundary isNameChar t.data
      ('>' :: (escapeStr false (textChars l) ++ rest)) htall
      (by intro c' hc'; simp only [List.head?_cons, Option.some.injEq] at hc'; subst hc'; rfl)
    have hcdl := parseCData_print l rest hrest
    rw [htd] at hname hrest1 hattrs hcdx hch hname2 hrest2
    simp only [List.cons_append, List.nil_append, List.append_assoc] at hname hrest1 hattrs hcdx hch hname2 hrest2
    simp only [List.cons_append, List.nil_append, List.append_assoc]
    simp only [parseElemF, htd, List.cons_append, List.nil_append, List.append_assoc,
      hname, hrest1, hattrs, hcdx, hch, hname2, hrest2, hcdl, Option.map_some']
    rw [← htd]
    simp
    exact htne

theorem wfElem_parts {e : Elem} (h : wfElem e = true) :
    wfName e.tag.data = true ∧ wfAttrs e.attrib = true ∧ wfChildren e.children = true := by
  cases e
  unfold wfElem at h
  simp only [Bool.and_eq_true] at h
  exact ⟨h.1.1, h.1.2, h.2⟩

theorem printElem_shape (e : Elem) : ∃ Z, printElem e = '<' :: (e.tag.data ++ Z) := by
  cases e with
  | mk t a x l c =>
    cases x with
    | none =>
      cases c with
      | nil =>
        refine ⟨printAttrs a ++ (['/', '>'] ++ escapeStr false (textChars l)), ?_⟩
        simp [printElem, Elem.tag, List.append_assoc]
      | cons c0 cs =>
        refine ⟨printAttrs a ++ (('>' :: (escapeStr false (textChars none) ++
          printChildren (c0 :: cs) ++ '<' :: '/' :: (t.data ++ ['>']))) ++
          escapeStr false (textChars l)), ?_⟩
        simp [printElem, Elem.tag, List.append_assoc]
    | some s =>
      refine ⟨printAttrs a ++ (('>' :: (escapeStr false (textChars (some s)) ++
        printChildren c ++ '<' :: '/' :: (t.data ++ ['>']))) ++
        escapeStr false (textChars l)), ?_⟩
      simp [printElem, Elem.tag, List.append_assoc]

theorem parseChildrenF_print_cons (f : Nat) (c0 : Elem) (cs : List Elem) (rest : List Char)
    (hw0 : wfName c0.tag.data = true)
    (hpe : parseElemF f (printElem c0 ++ (printChildren cs ++ rest)) =
      some (canonE c0, printChildren cs ++ rest))
    (hpc : parseChildrenF f (printChildren cs ++ rest) = some (canonL cs, rest)) :
    parseChildrenF (f + 1) (printChildren (c0 :: cs) ++ rest) =
      some (canonL (c0 :: cs), rest) := by
  obtain ⟨hne, hall⟩ := wfName_parts hw0
  cases htd : c0.tag.data with
  | nil => exact absurd htd hne
  | cons sh st =>
    have hsh : sh ≠ '/' := (nameChar_props (hall sh (by rw [htd]; simp))).2.2.1
    obtain ⟨Z, hZ⟩ := printElem_shape c0
    have hinput : printElem c0 ++ (printChildren cs ++ rest) =
        '<' :: sh :: ((st ++ Z) ++ (printChildren cs ++ rest)) := by
      rw [hZ, htd]
      simp [List.append_assoc]
    show parseChildrenF (f + 1) (printElem c0 ++ printChildren cs ++ rest) = _
    rw [List.append_assoc, hinput]
    simp only [parseChildrenF]
    rw [if_neg hsh]
    rw [← hinput, hpe]
    simp only [hpc]
    rfl

/-- The parser inverts the printer, up to `canonE`, for any sufficient
fuel: the heart of the round-trip claim. -/
theorem parse_print_inv : ∀ (f : Nat),
    (∀ (e : Elem) (rest : List Char), wfElem e = true → needElem e ≤ f →
      (rest = [] ∨ ∃ r, rest = '<' :: r) →
      parseElemF f (printElem e ++ rest) = some (canonE e, rest)) ∧
    (∀ (cs : List Elem) (rest : List Char), wfChildren cs = true → needChildren cs ≤ f →
      (∃ r, rest = '<' :: '/' :: r) →
      parseChildrenF f (printChildren cs ++ rest) = some (canonL cs, rest)) := by
  intro f
  induction f with
  | zero =>
    constructor
    · intro e rest _ hneed _
      cases e
      simp [needElem] at hneed
    · intro cs rest _ hneed _
      cases cs with
      | nil => simp [needChildren] at hneed
      | cons c0 cs => simp [needChildren] at hneed
  | succ f ih =>
    obtain ⟨ihE, ihC⟩ := ih
    constructor
    · intro e rest hwf hneed hrest
      obtain ⟨t, a, x, l, c⟩ := e
      obtain ⟨hw1, hw2, hw3⟩ := wfElem_parts hwf
      simp only [Elem.tag, Elem.attrib, Elem.children] at hw1 hw2 hw3
      have hneedc : needChildren c ≤ f := by
        have h1 : 1 + needChildren c ≤ f + 1 := hneed
        omega
      cases x with
      | none =>
        cases c with
        | nil =>
          have h := parseElemF_print_selfclosing f t a l rest hw1 hw2 hrest
          exact h
        | cons c0 cs =>
          have hch := ihC (c0 :: cs)
            ('<' :: '/' :: (t.data ++ '>' :: (escapeStr false (textChars l) ++ rest)))
            hw3 hneedc ⟨_, rfl⟩
          exact parseElemF_print_open f t a none l (c0 :: cs) rest hw1 hw2 hrest hch
      | some s =>
        have hch := ihC c
          ('<' :: '/' :: (t.data ++ '>' :: (escapeStr false (textChars l) ++ rest)))
          hw3 hneedc ⟨_, rfl⟩
        exact parseElemF_print_open f t a (some s) l c rest hw1 hw2 hrest hch
    · intro cs rest hwf hneed hrest
      cases cs with
      | nil =>
        obtain ⟨r, hr⟩ := hrest
        subst hr
        rfl
      | cons c0 cs =>
        have hw : wfElem c0 = true ∧ wfChildren cs = true := by
          unfold wfChildren at hwf
          simpa [Bool.and_eq_true] using hwf
        have hne : needElem c0 ≤ f ∧ needChildren cs ≤ f := by
          have h1 : 1 + max (needElem c0) (needChildren cs) ≤ f + 1 := hneed
          have h2 := le_max_left (needElem c0) (needChildren cs)
          have h3 := le_max_right (needElem c0) (needChildren cs)
          omega
        have hrestc : printChildren cs ++ rest = [] ∨
            ∃ rr, printChildren cs ++ rest = '<' :: rr := by
          refine Or.inr ?_
          cases cs with
          | nil =>
            obtain ⟨r, hr⟩ := hrest
            subst hr
            exact ⟨_, rfl⟩
          | cons c1 cs1 =>
            obtain ⟨rr, hrr⟩ := printElem_head c1
            refine ⟨rr ++ (printChildren cs1 ++ rest), ?_⟩
            show printElem c1 ++ printChildren cs1 ++ rest = _
            rw [hrr]
            simp [List.append_assoc]
        have hpe := ihE c0 (printChildren cs ++ rest) hw.1 hne.1 hrestc
        have hpc := ihC cs rest hw.2 hne.2 hrest
        exact parseChildrenF_print_cons f c0 cs rest (wfElem_parts hw.1).1 hpe hpc

theorem canonE_tag (e : Elem) : (canonE e).tag = e.tag := by
  cases e
  rfl

theorem canonE_tail (e : Elem) : (canonE e).tail = canonOpt e.tail := by
  cases e
  rfl

theorem pyStrip_canonOpt (x : Option String) : pyStrip (canonOpt x) = pyStrip x := by
  cases x with
  | none => rfl
  | some s =>
    by_cases hs : s = ""
    · subst hs
      rfl
    · show pyStrip (if s = "" then none else some s) = _
      rw [if_neg hs]

mutual
theorem wsEquiv_canonE (e : Elem) : wsEquiv (canonE e) e = true := by
  cases e with
  | mk t a x l c =>
    show wsEquiv (Elem.mk t a (canonOpt x) (canonOpt l) (canonL c)) (Elem.mk t a x l c) = true
    rw [wsEquiv]
    simp only [Bool.and_eq_true, beq_iff_eq]
    exact ⟨⟨⟨⟨trivial, dictEq_refl a⟩, pyStrip_canonOpt x⟩, pyStrip_canonOpt l⟩, wsEquivL_canonL c⟩
termination_by structural e

theorem wsEquivL_canonL (cs : List Elem) : wsEquivL (canonL cs) cs = true := by
  cases cs with
  | nil => rfl
  | cons c0 cs =>
    show wsEquivL (canonE c0 :: canonL cs) (c0 :: cs) = true
    rw [wsEquivL]
    simp only [Bool.and_eq_true]
    exact ⟨wsEquiv_canonE c0, wsEquivL_canonL cs⟩
termination_by structural cs
end

/-- Parsing the serialization of a well-formed, tail-free element yields its
canonical form. -/
theorem parseXML_print (e : Elem) (hwf : wfElem e = true) (htail : e.tail = none) :
    parseXML (⟨printElem e⟩ : String) = some (canonE e) := by
  have hfuel : needElem e ≤ (printElem e).length + 1 := by
    have := needElem_le_print e
    omega
  have hparse := (parse_print_inv ((printElem e).length + 1)).1 e [] hwf hfuel (Or.inl rfl)
  rw [List.append_nil] at hparse
  show (match parseElemF ((⟨printElem e⟩ : String).length + 1) (⟨printElem e⟩ : String).data with
    | some (e, []) =>
      match e.tail with
      | none => some e
      | some t =>
        if strip t = "" then some (Elem.mk e.tag e.attrib e.text none e.children) else none
    | _ => none) = some (canonE e)
  have hdata : (⟨printElem e⟩ : String).data = printElem e := rfl
  have hlen : (⟨printElem e⟩ : String).length = (printElem e).length := rfl
  rw [hdata, hlen, hparse]
  have htl : (canonE e).tail = none := by rw [canonE_tail, htail]; rfl
  simp only [htl]

/-- C1: for a bound object X whose wrapped element is a well-formed lxml
tree with no root tail (as every object built through the binding API is)
and whose auto-defaults are already materialized (as holds for every object
built from the fixture binding types), parsing the XML serialization of X
reconstructs an object structurally equal to X under the object-level
equality operator. -/
theorem claim_C1_round_trip (T : BindingType) (X : Obj)
    (hwf : wfElem X.element = true)
    (htail : X.element.tail = none)
    (htag : X.element.tag = T.tag)
    (hdefaults : setDefaultProperties T.mro (canonE X.element) = canonE X.element) :
    ∃ Y, from_xml T (to_xml X) = Except.ok Y ∧
      beqBase Y (EqArg.bound X) = Except.ok true := by
  have hp : parseXML (to_xml X) = some (canonE X.element) :=
    parseXML_print X.element hwf htail
  refine ⟨Obj.mk (canonE X.element) none, ?_, ?_⟩
  · show (match parseXML (to_xml X) with
      | none => Except.error BindError.parseFailure
      | some e => ofElement T e none) = _
    rw [hp]
    show ofElement T (canonE X.element) none = _
    unfold ofElement
    rw [if_neg (by rw [canonE_tag, htag]; exact not_not_intro rfl)]
    rw [hdefaults]
  · show Except.ok (eq_xml (canonE X.element) X.element [] true) = Except.ok true
    rw [wsEquiv_eq_xml _ _ _ (wsEquiv_canonE X.element)]

/-- Witness for C1 at a concrete input: a Person fixture instance with one
populated field round-trips through serialization and parsing into an
object that compares equal. -/
theorem claim_C1_witness :
    wfElem (Elem.mk "person" [] none none
      [Elem.mk "first" [] (some "John") none []]) = true ∧
    ∃ Y, from_xml PersonType (to_xml (Obj.mk
        (Elem.mk "person" [] none none [Elem.mk "first" [] (some "John") none []]) none)) =
      Except.ok Y ∧
      beqBase Y (EqArg.bound (Obj.mk
        (Elem.mk "person" [] none none [Elem.mk "first" [] (some "John") none []]) none)) =
      Except.ok true :=
  ⟨by decide,
   claim_C1_round_trip PersonType
     (Obj.mk (Elem.mk "person" [] none none [Elem.mk "first" [] (some "John") none []]) none)
     (by decide) rfl rfl rfl⟩

/-- C2: constructing a binding type from a tree node fails with the
Tag-Mismatch error carrying the type, the expected tag and the actual tag
exactly when the node's tag differs from the declared tag; construction
succeeds exactly when they agree; and constructing from parsed XML text
applies the same check to the parsed root. -/
theorem claim_C2_tag_mismatch (T : BindingType) (e : Elem) (par : Option Obj) (s : String) :
    (ofElement T e par = Except.error (BindError.tagMismatch T.name T.tag e.tag) ↔
      e.tag ≠ T.tag) ∧
    ((∃ o, ofElement T e par = Except.ok o) ↔ e.tag = T.tag) ∧
    (parseXML s = some e → from_xml T s = ofElement T e none) := by
  refine ⟨⟨?_, ?_⟩, ⟨?_, ?_⟩, ?_⟩
  · intro h
    intro heq
    unfold ofElement at h
    rw [if_neg (not_not_intro heq)] at h
    cases h
  · intro h
    unfold ofElement
    rw [if_pos h]
  · rintro ⟨o, ho⟩
    by_contra hne
    unfold ofElement at ho
    rw [if_pos hne] at ho
    cases ho
  · intro h
    refine ⟨Obj.mk (setDefaultProperties T.mro e) par, ?_⟩
    unfold ofElement
    rw [if_neg (not_not_intro h)]
  · intro hp
    show (match parseXML s with
      | none => Except.error BindError.parseFailure
      | some e => ofElement T e none) = _
    rw [hp]

/-- Witness for C2 at concrete inputs: giving the Person type an `address`
node fails with the Tag-Mismatch error carrying ("Person", "person",
"address"), both directly and through parsed text, while a matching tag
succeeds. -/
theorem claim_C2_witness :
    (ofElement PersonType (Elem.mk "address" [] none none []) none =
      Except.error (BindError.tagMismatch "Person" "person" "address")) ∧
    (from_xml PersonType "<address/>" =
      ofElement PersonType (Elem.mk "address" [] none none []) none) ∧
    (∃ o, ofElement PersonType (Elem.mk "person" [] none none []) none = Except.ok o) :=
  ⟨(claim_C2_tag_mismatch PersonType (Elem.mk "address" [] none none []) none "").1.mpr
     (by decide),
   (claim_C2_tag_mismatch PersonType (Elem.mk "address" [] none none []) none "<address/>").2.2
     rfl,
   (claim_C2_tag_mismatch PersonType (Elem.mk "person" [] none none []) none "").2.1.mpr rfl⟩
